import Mathlib

/-! Formal model of the endless-canvas application (src/main.rs): the coordinate
    transformer, the canvas state, the recurrence engine and the per-item step of the
    reminder scheduler. Timestamps are integer seconds (a fixed-offset reading of
    chrono DateTime with Local zone), coordinates are exact rationals standing for
    the f32 values of egui, and the wall clock now is passed explicitly where the
    source reads it from the environment. -/

/-- Recurrence rule tags, mirroring enum LoopFrequency of main.rs. -/
inductive LoopFrequency where
  | Once
  | Daily
  | Weekly
  | Monthly
  | Yearly
  | Sunday
  | Monday
  | Tuesday
  | Wednesday
  | Thursday
  | Friday
  | Saturday
deriving DecidableEq

/-- Two-dimensional vector over exact rationals, standing for both egui Pos2 and Vec2. -/
structure V2 where
  x : ℚ
  y : ℚ
deriving DecidableEq

def vadd (a b : V2) : V2 := ⟨a.x + b.x, a.y + b.y⟩

def vsub (a b : V2) : V2 := ⟨a.x - b.x, a.y - b.y⟩

def vscale (k : ℚ) (a : V2) : V2 := ⟨k * a.x, k * a.y⟩

def vdiv (a : V2) (k : ℚ) : V2 := ⟨a.x / k, a.y / k⟩

/-- Transformer of main.rs: pan offset plus zoom factor. -/
structure Transformer where
  offset : V2
  zoom : ℚ

/-- Transformer::to_screen: pos * zoom + offset. -/
def to_screen (tr : Transformer) (pos : V2) : V2 := vadd (vscale tr.zoom pos) tr.offset

/-- Transformer::from_screen: (pos - offset) / zoom. -/
def from_screen (tr : Transformer) (pos : V2) : V2 := vdiv (vsub pos tr.offset) tr.zoom

/-- Note entity of main.rs. -/
structure Note where
  id : Nat
  position : V2
  text : String
  size : V2
deriving DecidableEq

/-- Todo entity of main.rs; due is an optional timestamp in seconds. -/
structure Todo where
  id : Nat
  position : V2
  text : String
  due : Option Int
  is_done : Bool
  size : V2
  loop_freq : LoopFrequency
  notified : Bool
deriving DecidableEq

/-- AppState of main.rs, the aggregate canvas state. -/
structure AppState where
  notes : List Note
  todos : List Todo
  connections : List (Nat × Nat)
  offset : V2
  zoom : ℚ
  next_id : Nat
  background_image_path : Option String
  connecting_from_id : Option Nat
deriving DecidableEq

/-- The state produced by the derived Default implementation of AppState: every
    numeric field is zero (in particular zoom is 0, the f32 default), collections are
    empty and options are none. -/
def defaultAppState : AppState :=
  { notes := []
    todos := []
    connections := []
    offset := ⟨0, 0⟩
    zoom := 0
    next_id := 0
    background_image_path := none
    connecting_from_id := none }

/-- Startup state construction of EndlessCanvasApp::new: the snapshot loaded from disk
    when one parses, else the derived default (unwrap_or_default). -/
def initState (loaded : Option AppState) : AppState := loaded.getD defaultAppState

/-- AppState::get_item_pos: geometric center of the note or todo carrying the id,
    searching notes first. -/
def get_item_pos (s : AppState) (id : Nat) : Option V2 :=
  match s.notes.find? (fun n => n.id == id) with
  | some n => some (vadd n.position (vdiv n.size 2))
  | none =>
      match s.todos.find? (fun t => t.id == id) with
      | some t => some (vadd t.position (vdiv t.size 2))
      | none => none

/-- Rust f32::clamp on rationals: if below lo take lo, if above hi take hi, else keep. -/
def clampQ (x lo hi : ℚ) : ℚ := if x < lo then lo else if hi < x then hi else x

/-- Zoom-gesture handling of update (main.rs lines 279-288): when the zoom delta z is
    not 1, the zoom is multiplied by z and clamped to the range from 1/10 to 10, and the
    offset is recomputed about the hover position using the already-clamped new zoom
    divided by the old zoom. -/
def zoomGesture (s : AppState) (hover : V2) (z : ℚ) : AppState :=
  if z ≠ 1 then
    { s with
      zoom := clampQ (s.zoom * z) (1/10) 10
      offset := vsub hover
        (vscale (clampQ (s.zoom * z) (1/10) 10 / s.zoom) (vsub hover s.offset)) }
  else s

/-- Link-gesture handling of update (main.rs lines 438-446): if a connection is pending
    from sid, the pending source is taken (cleared) and the pair is appended unless the
    two ids coincide; otherwise the clicked id becomes the pending source. -/
def linkClick (s : AppState) (cid : Nat) : AppState :=
  match s.connecting_from_id with
  | some sid =>
      if sid ≠ cid then
        { s with connecting_from_id := none, connections := s.connections ++ [(sid, cid)] }
      else
        { s with connecting_from_id := none }
  | none => { s with connecting_from_id := some cid }

/-- Day index of a timestamp in seconds; by convention day 0 is a Sunday. -/
def dayOf (t : Int) : Int := t / 86400

/-- Weekday of a timestamp, numbered 0 = Sunday through 6 = Saturday. -/
def weekdayOf (t : Int) : Int := dayOf t % 7

/-- Numeric weekday target of a specific-weekday rule, following the match of
    get_next_due that maps the seven weekday tags to chrono Weekday values. -/
def weekdayCode : LoopFrequency → Option Int
  | .Sunday => some 0
  | .Monday => some 1
  | .Tuesday => some 2
  | .Wednesday => some 3
  | .Thursday => some 4
  | .Friday => some 5
  | .Saturday => some 6
  | _ => none

/-- Inner weekday-search loop of get_next_due: starting from next, step forward one day
    at a time until the weekday matches the target. The source loop is syntactically
    unbounded but provably needs at most 7 probes (lemma findNextWeekday_spec together
    with hit_exists), so stepWeekday runs it with fuel 7. -/
def findNextWeekday (target : Int) : Nat → Int → Int
  | 0, next => next
  | fuel + 1, next =>
      if weekdayOf next = target then next else findNextWeekday target fuel (next + 86400)

/-- Weekday arm of the loop body of get_next_due: let next = next_due + 1 day, then
    advance day by day until the weekday equals the target. -/
def stepWeekday (t target : Int) : Int := findNextWeekday target 7 (t + 86400)

/-- One iteration of the advancing loop body of get_next_due (the match on freq):
    Once leaves next_due unchanged, the periodic rules add their fixed span in days,
    and a specific-weekday rule takes the next strictly-later day with that weekday. -/
def stepFreq (nextDue : Int) : LoopFrequency → Int
  | .Once => nextDue
  | .Daily => nextDue + 86400
  | .Weekly => nextDue + 7 * 86400
  | .Monthly => nextDue + 30 * 86400
  | .Yearly => nextDue + 365 * 86400
  | .Sunday => stepWeekday nextDue 0
  | .Monday => stepWeekday nextDue 1
  | .Tuesday => stepWeekday nextDue 2
  | .Wednesday => stepWeekday nextDue 3
  | .Thursday => stepWeekday nextDue 4
  | .Friday => stepWeekday nextDue 5
  | .Saturday => stepWeekday nextDue 6

/-- Fuel-indexed unfolding of the while loop of get_next_due: while next_due is at most
    now, replace it by the loop body's value. A none result means the loop did not
    finish within the given fuel. -/
def loopNext : Nat → Int → Int → LoopFrequency → Option Int
  | 0, nextDue, now, _ => if nextDue ≤ now then none else some nextDue
  | fuel + 1, nextDue, now, freq =>
      if nextDue ≤ now then loopNext fuel (stepFreq nextDue freq) now freq
      else some nextDue

/-- get_next_due of main.rs with the wall clock made an explicit argument. The fuel is
    provably sufficient for every rule other than Once (lemma get_next_due_total), so
    the model returns some exactly when the source loop terminates; for Once with
    current_due at most now the source loop never terminates and the model returns
    none for every fuel (lemma loopNext_once_none). -/
def get_next_due (currentDue : Int) (freq : LoopFrequency) (now : Int) : Option Int :=
  loopNext ((now - currentDue).toNat / 86400 + 2) currentDue now freq

/-- One scheduler scan applied to a single todo (main.rs lines 196-215), parameterized
    by the recurrence function so that sensitivity to its Once behavior can be stated.
    Returns the updated todo and whether a notification fired. -/
def scanTodoWith (f : Int → LoopFrequency → Int → Option Int) (now : Int) (t : Todo) :
    Todo × Bool :=
  if t.is_done then (t, false)
  else
    match t.due with
    | some due_time =>
        if due_time < now ∧ t.notified = false then
          if t.loop_freq = LoopFrequency.Once then ({ t with notified := true }, true)
          else ({ t with due := f due_time t.loop_freq now }, true)
        else (t, false)
    | none => (t, false)

/-- The scheduler scan as written, using get_next_due. -/
def scanTodo (now : Int) (t : Todo) : Todo × Bool := scanTodoWith get_next_due now t

/-- Repeated scheduler scans at the given sequence of wall-clock instants; the second
    component counts notifications fired. -/
def scanMany : List Int → Todo → Todo × Nat
  | [], t => (t, 0)
  | now :: rest, t =>
      ((scanMany rest (scanTodo now t).1).1,
       (if (scanTodo now t).2 then 1 else 0) + (scanMany rest (scanTodo now t).1).2)

/-- Frequency ComboBox handling (main.rs lines 425-431): selecting a rule writes
    loop_freq and nothing else; in particular notified is not reset. -/
def setLoopFreq (t : Todo) (f : LoopFrequency) : Todo := { t with loop_freq := f }

/-- Due-date edit handling (main.rs lines 421-424): writes due and resets notified. -/
def setDue (t : Todo) (d : Int) : Todo := { t with due := some d, notified := false }

/-- A one-shot todo with the Add Todo defaults except that a past due date (0) has been
    set; used as a concrete scenario for the scheduler claims. -/
def c3Todo : Todo :=
  { id := 0
    position := ⟨0, 0⟩
    text := "New todo"
    due := some 0
    is_done := false
    size := ⟨200, 150⟩
    loop_freq := .Once
    notified := false }

/-- A one-shot todo that has already fired its notification. -/
def c4Todo : Todo :=
  { id := 1
    position := ⟨0, 0⟩
    text := "New todo"
    due := some 0
    is_done := false
    size := ⟨200, 150⟩
    loop_freq := .Once
    notified := true }

/-! Helper lemmas. -/

lemma clampQ_pos (x : ℚ) : (0 : ℚ) < clampQ x (1/10) 10 := by
  unfold clampQ
  rcases lt_or_le x (1/10) with h | h
  · rw [if_pos h]; norm_num
  · rw [if_neg (not_lt.mpr h)]
    rcases lt_or_le 10 x with h2 | h2
    · rw [if_pos h2]; norm_num
    · rw [if_neg (not_lt.mpr h2)]; linarith

lemma loopNext_of_future (fuel : Nat) (d now : Int) (freq : LoopFrequency) (h : now < d) :
    loopNext fuel d now freq = some d := by
  cases fuel <;> simp [loopNext, not_le.mpr h]

lemma loopNext_once_none (fuel : Nat) (d now : Int) (h : d ≤ now) :
    loopNext fuel d now LoopFrequency.Once = none := by
  induction fuel with
  | zero => simp [loopNext, h]
  | succ k ih => simpa [loopNext, h, stepFreq] using ih

lemma scanTodo_notified (now : Int) (t : Todo) (h : t.notified = true) :
    scanTodo now t = (t, false) := by
  unfold scanTodo scanTodoWith
  cases hdone : t.is_done with
  | true => simp
  | false =>
      cases hdue : t.due with
      | none => simp
      | some d => simp [h]

/-! Claim theorems for the coordinate transformer and the canvas state. -/

/-- C1: the claim that zoom always lies in the closed interval from 1/10 to 10 fails at
    process start when no snapshot loads: the derived default state has zoom 0, which
    the code never clamps. -/
theorem c1_default_zoom_violation :
    (initState none).zoom = 0
    ∧ ¬ (1/10 ≤ (initState none).zoom ∧ (initState none).zoom ≤ 10) := by
  constructor
  · rfl
  · intro hc
    have h1 : (1/10 : ℚ) ≤ 0 := hc.1
    norm_num at h1

/-- C7: for every offset, every zoom in the clamp range, and every world point w, the
    transformer round trip from_screen (to_screen w) returns w exactly. -/
theorem c7_round_trip (tr : Transformer) (w : V2)
    (h1 : 1/10 ≤ tr.zoom) (h2 : tr.zoom ≤ 10) :
    from_screen tr (to_screen tr w) = w := by
  have hz : tr.zoom ≠ 0 := by
    have h0 : (0 : ℚ) < tr.zoom := lt_of_lt_of_le (by norm_num) h1
    exact h0.ne'
  cases w with
  | mk wx wy =>
      simp only [from_screen, to_screen, vadd, vscale, vsub, vdiv, V2.mk.injEq]
      constructor <;> rw [add_sub_cancel_right, mul_div_cancel_left₀ _ hz]

theorem c7_round_trip_witness :
    from_screen ⟨⟨3, 4⟩, 2⟩ (to_screen ⟨⟨3, 4⟩, 2⟩ ⟨5, 6⟩) = ⟨5, 6⟩ :=
  c7_round_trip ⟨⟨3, 4⟩, 2⟩ ⟨5, 6⟩ (by norm_num) (by norm_num)

/-- C6: a zoom gesture at hover point p recomputes the offset so that from_screen at p
    is unchanged: with a nonzero old zoom, the transform after the gesture maps p to the
    same world point as the transform before it. -/
theorem c6_zoom_pivot (s : AppState) (p : V2) (z : ℚ) (h : s.zoom ≠ 0) :
    from_screen ⟨(zoomGesture s p z).offset, (zoomGesture s p z).zoom⟩ p
      = from_screen ⟨s.offset, s.zoom⟩ p := by
  rcases eq_or_ne z 1 with hz1 | hz1
  · simp [zoomGesture, hz1]
  · have h2 : clampQ (s.zoom * z) (1/10) 10 ≠ 0 := (clampQ_pos (s.zoom * z)).ne'
    unfold zoomGesture
    rw [if_pos hz1]
    simp only [from_screen, vsub, vscale, vdiv, V2.mk.injEq]
    constructor <;>
      · rw [sub_sub_cancel, div_mul_eq_mul_div, div_right_comm, mul_div_cancel_left₀ _ h2]

theorem c6_zoom_pivot_witness :
    from_screen
        ⟨(zoomGesture { defaultAppState with zoom := 1 } ⟨8, 6⟩ 2).offset,
         (zoomGesture { defaultAppState with zoom := 1 } ⟨8, 6⟩ 2).zoom⟩ ⟨8, 6⟩
      = from_screen ⟨{ defaultAppState with zoom := 1 : AppState }.offset,
                     { defaultAppState with zoom := 1 : AppState }.zoom⟩ ⟨8, 6⟩ :=
  c6_zoom_pivot { defaultAppState with zoom := 1 } ⟨8, 6⟩ 2 (by norm_num [defaultAppState])

/-- C9: starting with no pending connection, clicking the link button on a then on a
    distinct b appends exactly the connection (a, b) and clears the pending source,
    while clicking twice on the same id appends nothing and clears the pending source. -/
theorem c9_connection_pairing (s : AppState) (a b : Nat)
    (h0 : s.connecting_from_id = none) (hab : a ≠ b) :
    ((linkClick (linkClick s a) b).connections = s.connections ++ [(a, b)]
      ∧ (linkClick (linkClick s a) b).connecting_from_id = none)
    ∧ ((linkClick (linkClick s a) a).connections = s.connections
      ∧ (linkClick (linkClick s a) a).connecting_from_id = none) := by
  simp [linkClick, h0, hab]

theorem c9_connection_pairing_witness :
    ((linkClick (linkClick defaultAppState 1) 2).connections
        = defaultAppState.connections ++ [(1, 2)]
      ∧ (linkClick (linkClick defaultAppState 1) 2).connecting_from_id = none)
    ∧ ((linkClick (linkClick defaultAppState 1) 1).connections = defaultAppState.connections
      ∧ (linkClick (linkClick defaultAppState 1) 1).connecting_from_id = none) :=
  c9_connection_pairing defaultAppState 1 2 rfl (by decide)

/-! Claim theorems for the recurrence engine (easy cases) and the scheduler step. -/

/-- C2 counterexample: with the one-shot rule and a past due time the engine does not
    return current_due: the Once arm leaves next_due unchanged inside the advancing
    loop, so the loop never finishes (none for the sufficient fuel used by the model). -/
theorem c2_once_counterexample :
    get_next_due 0 LoopFrequency.Once 86400 ≠ some 0 := by decide

/-- C2 (amended): the one-shot rule returns current_due unchanged exactly when
    current_due is strictly after now; when current_due is at most now the advancing
    loop never terminates, modelled by loopNext returning none for every fuel. -/
theorem c2_once_amended :
    (∀ d now : Int, now < d → get_next_due d LoopFrequency.Once now = some d)
    ∧ (∀ (fuel : Nat) (d now : Int), d ≤ now →
        loopNext fuel d now LoopFrequency.Once = none) := by
  constructor
  · intro d now h
    unfold get_next_due
    exact loopNext_of_future _ d now _ h
  · intro fuel d now h
    exact loopNext_once_none fuel d now h

theorem c2_once_amended_witness :
    get_next_due 100 LoopFrequency.Once 50 = some 100
    ∧ loopNext 5 0 100 LoopFrequency.Once = none :=
  ⟨c2_once_amended.1 100 50 (by decide), c2_once_amended.2 5 0 100 (by decide)⟩

/-- C8: for every rule, a due time strictly after now is returned unchanged: the loop
    condition fails immediately, so the engine is idempotent on future due times. -/
theorem c8_recurrence_idempotent (d now : Int) (freq : LoopFrequency) (h : now < d) :
    get_next_due d freq now = some d := by
  unfold get_next_due
  exact loopNext_of_future _ d now freq h

theorem c8_recurrence_idempotent_witness :
    get_next_due 100 LoopFrequency.Daily 50 = some 100 :=
  c8_recurrence_idempotent 100 50 LoopFrequency.Daily (by decide)

/-- C4: a one-shot todo that has been notified is never notified again by any sequence
    of scheduler scans and is left completely unchanged by them. -/
theorem c4_one_shot_suppression (nows : List Int) (t : Todo)
    (hfreq : t.loop_freq = LoopFrequency.Once) (h : t.notified = true) :
    scanMany nows t = (t, 0) := by
  induction nows with
  | nil => rfl
  | cons now rest ih =>
      unfold scanMany
      rw [scanTodo_notified now t h]
      simp [ih]

theorem c4_one_shot_suppression_witness :
    scanMany [10, 20, 30] c4Todo = (c4Todo, 0) :=
  c4_one_shot_suppression [10, 20, 30] c4Todo rfl rfl

/-- C3: the steady-state invariant fails on the code: after a one-shot todo fires
    (notified becomes true), selecting Daily in the frequency ComboBox writes loop_freq
    only, producing a reachable steady state with a non-Once rule and notified true, in
    which later scans fire nothing (the item is permanently suppressed). -/
theorem c3_freq_change_breaks_invariant :
    (setLoopFreq (scanTodo 10 c3Todo).1 LoopFrequency.Daily).loop_freq ≠ LoopFrequency.Once
    ∧ (setLoopFreq (scanTodo 10 c3Todo).1 LoopFrequency.Daily).notified = true
    ∧ scanTodo 20 (setLoopFreq (scanTodo 10 c3Todo).1 LoopFrequency.Daily)
        = (setLoopFreq (scanTodo 10 c3Todo).1 LoopFrequency.Daily, false) := by
  decide

/-- C10: the scheduler scan is insensitive to what the recurrence function does on the
    one-shot rule: any two recurrence functions agreeing on every non-Once rule give
    identical scan results, so the Once branch of get_next_due is never reached from
    the scheduler. -/
theorem c10_scheduler_never_once
    (f g : Int → LoopFrequency → Int → Option Int) (now : Int) (t : Todo)
    (h : ∀ (d : Int) (fq : LoopFrequency) (n : Int),
        fq ≠ LoopFrequency.Once → f d fq n = g d fq n) :
    scanTodoWith f now t = scanTodoWith g now t := by
  unfold scanTodoWith
  cases hdone : t.is_done with
  | true => rfl
  | false =>
      cases hdue : t.due with
      | none => rfl
      | some d =>
          by_cases hc : d < now ∧ t.notified = false
          · by_cases ho : t.loop_freq = LoopFrequency.Once
            · simp [hc, ho]
            · simp [hc, ho, h d t.loop_freq now ho]
          · simp [hc]

theorem c10_scheduler_never_once_witness :
    scanTodoWith get_next_due 10 c3Todo
      = scanTodoWith
          (fun d fq n => if fq = LoopFrequency.Once then none else get_next_due d fq n)
          10 c3Todo :=
  c10_scheduler_never_once _ _ 10 c3Todo (by
    intro d fq n hfq
    simp [hfq])

/-! Weekday arithmetic lemmas for the specific-weekday rules. -/

lemma dayOf_add_mul (t j : Int) : dayOf (t + 86400 * j) = dayOf t + j := by
  unfold dayOf
  omega

lemma weekdayOf_add_mul (t j : Int) : weekdayOf (t + 86400 * j) = (dayOf t + j) % 7 := by
  unfold weekdayOf
  rw [dayOf_add_mul]

lemma hit_exists (next target : Int) (h0 : 0 ≤ target) (h7 : target < 7) :
    ∃ j : Nat, j < 7 ∧ weekdayOf (next + 86400 * (j : Int)) = target := by
  have h1 : 0 ≤ (target - dayOf next) % 7 := by omega
  have h2 : (target - dayOf next) % 7 < 7 := by omega
  refine ⟨((target - dayOf next) % 7).toNat, by omega, ?_⟩
  rw [weekdayOf_add_mul]
  omega

lemma findNextWeekday_ge (target : Int) :
    ∀ (fuel : Nat) (next : Int), next ≤ findNextWeekday target fuel next := by
  intro fuel
  induction fuel with
  | zero => intro next; simp [findNextWeekday]
  | succ k ih =>
      intro next
      unfold findNextWeekday
      by_cases h : weekdayOf next = target
      · simp [h]
      · rw [if_neg h]
        have h2 := ih (next + 86400)
        omega

lemma findNextWeekday_spec (target : Int) :
    ∀ (fuel : Nat) (next : Int),
      (∃ j : Nat, j < fuel ∧ weekdayOf (next + 86400 * (j : Int)) = target) →
      ∃ j0 : Nat, findNextWeekday target fuel next = next + 86400 * (j0 : Int)
        ∧ weekdayOf (next + 86400 * (j0 : Int)) = target
        ∧ ∀ j : Nat, j < j0 → weekdayOf (next + 86400 * (j : Int)) ≠ target := by
  intro fuel
  induction fuel with
  | zero =>
      intro next hex
      obtain ⟨j, hj, _⟩ := hex
      omega
  | succ k ih =>
      intro next hex
      by_cases hw : weekdayOf next = target
      · refine ⟨0, ?_, ?_, ?_⟩
        · simp [findNextWeekday, hw]
        · simpa using hw
        · intro j hj; omega
      · obtain ⟨j, hj, hhit⟩ := hex
        have hj0 : j ≠ 0 := by
          intro hzero
          apply hw
          simpa [hzero] using hhit
        obtain ⟨j1, rfl⟩ : ∃ j1, j = j1 + 1 := ⟨j - 1, by omega⟩
        have hex2 : ∃ j2 : Nat, j2 < k ∧ weekdayOf (next + 86400 + 86400 * (j2 : Int)) = target := by
          refine ⟨j1, by omega, ?_⟩
          have e : next + 86400 + 86400 * (j1 : Int) = next + 86400 * (((j1 : Int)) + 1) := by ring
          rw [e]
          have e2 : ((j1 + 1 : Nat) : Int) = (j1 : Int) + 1 := by push_cast; ring
          rw [e2] at hhit
          exact hhit
        obtain ⟨j0, he, hhit0, hmin⟩ := ih (next + 86400) hex2
        refine ⟨j0 + 1, ?_, ?_, ?_⟩
        · unfold findNextWeekday
          rw [if_neg hw, he]
          push_cast
          ring
        · have e : next + 86400 * (((j0 + 1 : Nat) : Int)) = next + 86400 + 86400 * (j0 : Int) := by
            push_cast; ring
          rw [e]
          exact hhit0
        · intro j hj
          rcases Nat.eq_zero_or_pos j with hzero | hpos
          · subst hzero; simpa using hw
          · obtain ⟨j2, rfl⟩ : ∃ j2, j = j2 + 1 := ⟨j - 1, by omega⟩
            have h2 : j2 < j0 := by omega
            have hne := hmin j2 h2
            intro hc
            apply hne
            have e : next + 86400 + 86400 * (j2 : Int) = next + 86400 * (((j2 + 1 : Nat) : Int)) := by
              push_cast; ring
            rw [e]
            exact hc

lemma stepWeekday_spec (t target : Int) (h0 : 0 ≤ target) (h7 : target < 7) :
    t < stepWeekday t target
    ∧ (stepWeekday t target) % 86400 = t % 86400
    ∧ weekdayOf (stepWeekday t target) = target
    ∧ ∀ s : Int, t < s → s < stepWeekday t target → s % 86400 = t % 86400 →
        weekdayOf s ≠ target := by
  obtain ⟨j0, he, hhit, hmin⟩ :=
    findNextWeekday_spec target 7 (t + 86400) (hit_exists (t + 86400) target h0 h7)
  have he2 : stepWeekday t target = t + 86400 + 86400 * (j0 : Int) := he
  refine ⟨by omega, by omega, ?_, ?_⟩
  · rw [he2]
    exact hhit
  · intro s hst hsr hsmod hc
    have hdvd : (86400 : Int) ∣ (s - t) := by omega
    obtain ⟨k, hk⟩ := hdvd
    have hk1 : 1 ≤ k := by omega
    have hkj : k ≤ (j0 : Int) := by
      rw [he2] at hsr
      omega
    have hkt : ((k - 1).toNat : Int) = k - 1 := by omega
    have hne := hmin (k - 1).toNat (by omega)
    apply hne
    have e : t + 86400 + 86400 * (((k - 1).toNat : Int)) = s := by
      rw [hkt]; omega
    rw [e]
    exact hc

lemma weekdayCode_range (fq : LoopFrequency) (W : Int) (h : weekdayCode fq = some W) :
    0 ≤ W ∧ W < 7 := by
  cases fq <;> simp only [weekdayCode, Option.some.injEq, reduceCtorEq] at h <;> omega

lemma weekdayCode_ne_once (fq : LoopFrequency) (W : Int) (h : weekdayCode fq = some W) :
    fq ≠ LoopFrequency.Once := by
  intro hc
  subst hc
  simp [weekdayCode] at h

lemma stepFreq_weekday (d W : Int) (fq : LoopFrequency) (h : weekdayCode fq = some W) :
    stepFreq d fq = stepWeekday d W := by
  cases fq <;>
    simp only [weekdayCode, Option.some.injEq, reduceCtorEq] at h <;>
    rw [← h] <;> rfl

lemma stepFreq_ge (d : Int) (fq : LoopFrequency) (h : fq ≠ LoopFrequency.Once) :
    d + 86400 ≤ stepFreq d fq := by
  have hsw : ∀ target : Int, d + 86400 ≤ stepWeekday d target := by
    intro target
    exact findNextWeekday_ge target 7 (d + 86400)
  cases fq with
  | Once => exact absurd rfl h
  | Daily => simp only [stepFreq]; omega
  | Weekly => simp only [stepFreq]; omega
  | Monthly => simp only [stepFreq]; omega
  | Yearly => simp only [stepFreq]; omega
  | Sunday => exact hsw 0
  | Monday => exact hsw 1
  | Tuesday => exact hsw 2
  | Wednesday => exact hsw 3
  | Thursday => exact hsw 4
  | Friday => exact hsw 5
  | Saturday => exact hsw 6

lemma loopNext_total (now : Int) (freq : LoopFrequency) (h : freq ≠ LoopFrequency.Once) :
    ∀ (fuel : Nat) (d : Int), now - d < 86400 * (fuel : Int) →
      ∃ r, loopNext fuel d now freq = some r := by
  intro fuel
  induction fuel with
  | zero =>
      intro d hd
      refine ⟨d, ?_⟩
      have hlt : now < d := by omega
      simp [loopNext, not_le.mpr hlt]
  | succ k ih =>
      intro d hd
      by_cases hle : d ≤ now
      · have hstep := stepFreq_ge d freq h
        obtain ⟨r, hr⟩ := ih (stepFreq d freq) (by omega)
        refine ⟨r, ?_⟩
        rw [loopNext, if_pos hle]
        exact hr
      · refine ⟨d, ?_⟩
        rw [loopNext, if_neg hle]

lemma get_next_due_total (d now : Int) (freq : LoopFrequency) (h : freq ≠ LoopFrequency.Once) :
    ∃ r, get_next_due d freq now = some r := by
  unfold get_next_due
  apply loopNext_total now freq h
  omega

lemma loopNext_weekday_min (d0 now W : Int) (fq : LoopFrequency)
    (hfq : weekdayCode fq = some W) :
    ∀ (fuel : Nat) (d r : Int),
      d % 86400 = d0 % 86400 →
      (d ≤ now ∨ (weekdayOf d = W ∧ ∀ s : Int, weekdayOf s = W →
          s % 86400 = d0 % 86400 → now < s → d ≤ s)) →
      loopNext fuel d now fq = some r →
      weekdayOf r = W ∧ r % 86400 = d0 % 86400 ∧ now < r
        ∧ ∀ s : Int, weekdayOf s = W → s % 86400 = d0 % 86400 → now < s → r ≤ s := by
  obtain ⟨hW0, hW7⟩ := weekdayCode_range fq W hfq
  intro fuel
  induction fuel with
  | zero =>
      intro d r h1 h2 hr
      by_cases hle : d ≤ now
      · simp [loopNext, hle] at hr
      · simp [loopNext, hle] at hr
        subst hr
        rcases h2 with h2 | ⟨h2a, h2b⟩
        · exact absurd h2 hle
        · exact ⟨h2a, h1, by omega, h2b⟩
  | succ k ih =>
      intro d r h1 h2 hr
      by_cases hle : d ≤ now
      · rw [loopNext, if_pos hle, stepFreq_weekday d W fq hfq] at hr
        obtain ⟨hgt, hmod, hwd, hmin⟩ := stepWeekday_spec d W hW0 hW7
        apply ih (stepWeekday d W) r
        · omega
        · by_cases hle2 : stepWeekday d W ≤ now
          · exact Or.inl hle2
          · refine Or.inr ⟨hwd, ?_⟩
            intro s hs1 hs2 hs3
            by_contra hcon
            push_neg at hcon
            exact hmin s (by omega) hcon (by omega) hs1
        · exact hr
      · rw [loopNext, if_neg hle] at hr
        have hr2 : d = r := by
          simpa using hr
        subst hr2
        rcases h2 with h2 | ⟨h2a, h2b⟩
        · exact absurd h2 hle
        · exact ⟨h2a, h1, by omega, h2b⟩

/-- C5: for a specific-weekday rule with target W and a due time at most now, the
    engine terminates and returns the earliest timestamp strictly after now whose
    weekday is W and whose time of day equals that of current_due. -/
theorem c5_weekday_recurrence (d now W : Int) (fq : LoopFrequency)
    (hfq : weekdayCode fq = some W) (hd : d ≤ now) :
    ∃ r : Int, get_next_due d fq now = some r
      ∧ weekdayOf r = W
      ∧ now < r
      ∧ r % 86400 = d % 86400
      ∧ ∀ s : Int, weekdayOf s = W → s % 86400 = d % 86400 → now < s → r ≤ s := by
  obtain ⟨r, hr⟩ := get_next_due_total d now fq (weekdayCode_ne_once fq W hfq)
  have hr2 : loopNext ((now - d).toNat / 86400 + 2) d now fq = some r := hr
  have hmain :=
    loopNext_weekday_min d now W fq hfq ((now - d).toNat / 86400 + 2) d r rfl (Or.inl hd) hr2
  exact ⟨r, hr, hmain.1, hmain.2.2.1, hmain.2.1, hmain.2.2.2⟩

theorem c5_weekday_recurrence_witness :
    ∃ r : Int, get_next_due 0 LoopFrequency.Friday 100 = some r
      ∧ weekdayOf r = 5
      ∧ 100 < r
      ∧ r % 86400 = (0 : Int) % 86400
      ∧ ∀ s : Int, weekdayOf s = 5 → s % 86400 = (0 : Int) % 86400 → 100 < s → r ≤ s :=
  c5_weekday_recurrence 0 100 5 LoopFrequency.Friday (by decide) (by decide)
